import Mathlib

/-!
Verification of the madmom beat/onset evaluation core
(`madmom/evaluation/beats.py`, `madmom/evaluation/onsets.py`).

Event sequences are embedded as `List ℚ` (event times in seconds), scores as
`ℚ` where the source computes with exact ratios of counts, and as `ℝ` where the
source applies transcendental functions (`exp`, `log2`).  Fallible functions
(Python exceptions) are embedded as `Except MadmomError`.
-/

deriving instance DecidableEq for Except

namespace Madmom

/-- The error kinds raised by the evaluation code: `BeatIntervalError`
(fewer than 2 events for an interval computation), `ValueError`
(non-positive tolerance or bad bin count), `AssertionError`
(internal consistency check failed). -/
inductive MadmomError where
  | beatIntervalError
  | valueError
  | assertionError
  deriving DecidableEq, Repr

/-- Successive differences of a list, `np.diff`. -/
def listDiffs {α : Type} [Sub α] : List α → List α
  | a :: b :: t => (b - a) :: listDiffs (b :: t)
  | _ => []

/-- Minimum of a list (0 for the empty list; only used on non-empty lists). -/
def listMin : List ℚ → ℚ
  | [] => 0
  | x :: xs => xs.foldr min x

/-- First index at which a list of distances attains its minimum
(`np.argmin` semantics: ties resolve to the earliest index). -/
def argminFirst : List ℚ → ℕ
  | [] => 0
  | [_] => 0
  | x :: y :: ys => if x ≤ listMin (y :: ys) then 0 else argminFirst (y :: ys) + 1

/-- First index at which a list attains its maximum
(`np.argmax` semantics: ties resolve to the earliest index). -/
def argmaxFirst : List ℕ → ℕ
  | [] => 0
  | [_] => 0
  | x :: y :: ys => if (y :: ys).foldr max 0 ≤ x then 0 else argmaxFirst (y :: ys) + 1

/-- Modelled from the spec: `find_closest_matches` of
`madmom/evaluation/__init__.py` is not part of the given sources.  Section 4.1
(SequenceMatcher) specifies: for every element of `query` return the index of
the nearest element of `reference` by absolute time difference; the
tie-breaking rule is left to the implementer and we fix the suggested
deterministic rule of preferring the earlier reference element. -/
def find_closest_matches (query reference : List ℚ) : List ℕ :=
  query.map (fun q => argminFirst (reference.map (fun r => |q - r|)))

/-- Modelled from the spec: `calc_errors` of `madmom/evaluation/__init__.py`
is not part of the given sources.  Section 4.1 specifies the signed error
`query[i] - reference[match[i]]`; when no matches are given (`matches=None`
in the source) the closest matches are computed first. -/
def calc_errors (detections annotations : List ℚ)
    (matchesOpt : Option (List ℕ)) : List ℚ :=
  let m := match matchesOpt with
    | none => find_closest_matches detections annotations
    | some m => m
  (detections.zip m).map (fun p => p.1 - annotations.getD p.2 0)

/-- Modelled from the spec: `calc_absolute_errors` of
`madmom/evaluation/__init__.py` is not part of the given sources.  Section 4.1
specifies it as the absolute value of `calc_errors`. -/
def calc_absolute_errors (detections annotations : List ℚ)
    (matchesOpt : Option (List ℕ)) : List ℚ :=
  (calc_errors detections annotations matchesOpt).map (fun e => |e|)

/-- `find_longest_continuous_segment` (beats.py): boundaries are placed at
every position where the difference of consecutive indices is not exactly 1
(`np.nonzero(np.diff(sequence_indices) != 1)[0] + 1`); the `+ 1` is folded
into starting the index enumeration at 1. -/
def segmentBoundaries : List ℤ → ℕ → List ℕ
  | [], _ => []
  | d :: ds, i => if d ≠ 1 then i :: segmentBoundaries ds (i + 1)
                  else segmentBoundaries ds (i + 1)

/-- `find_longest_continuous_segment(sequence_indices)` (beats.py): length and
start position of the longest run of consecutive indices.  The segment
boundary list is `[0] ++ boundaries ++ [len]`, the segment lengths are its
successive differences, the result is `np.max` of the lengths and the boundary
at the first index attaining that maximum. -/
def find_longest_continuous_segment (sequence_indices : List ℤ) : ℕ × ℕ :=
  let boundaries := segmentBoundaries (listDiffs sequence_indices) 1
  let bs := 0 :: boundaries ++ [sequence_indices.length]
  let segment_lengths := listDiffs bs
  let length := segment_lengths.foldr max 0
  let start_pos := bs.getD (argmaxFirst segment_lengths) 0
  (length, start_pos)

example : find_longest_continuous_segment [5, 6, 7, 10, 11] = (3, 0) := by decide
example : find_longest_continuous_segment [5, 6, 7, 10, 11, 12, 13] = (4, 3) := by
  decide
example : find_longest_continuous_segment [] = (0, 0) := by decide

/-- `calc_intervals(events, fwd)` (beats.py): intervals of all events to the
previous (`fwd=False`) or next (`fwd=True`) event; the first (respectively
last) interval is copied from its neighbour; raises `BeatIntervalError` for
fewer than 2 events. -/
def calc_intervals (events : List ℚ) (fwd : Bool) : Except MadmomError (List ℚ) :=
  if events.length < 2 then .error .beatIntervalError
  else if fwd then .ok (listDiffs events ++ [(listDiffs events).getLastD 0])
  else .ok ((listDiffs events).headD 0 :: listDiffs events)

/-- `find_closest_intervals(detections, annotations, matches)` (beats.py).
The interval array `intervals` of length `len(annotations) + 1` is built by
`intervals[1:-1] = np.diff(annotations)`, `intervals[0] = intervals[1]`,
`intervals[-1] = intervals[-2]`; each detection with positive signed error
gets `intervals[match + 1]`, otherwise `intervals[match]`. -/
def find_closest_intervals (detections annotations : List ℚ)
    (matchesOpt : Option (List ℕ)) : Except MadmomError (List ℚ) :=
  if detections.length = 0 then .ok []
  else if annotations.length < 2 then .error .beatIntervalError
  else
    let gaps := listDiffs annotations
    let intervals := gaps.headD 0 :: (gaps ++ [gaps.getLastD 0])
    let ms := match matchesOpt with
      | none => find_closest_matches detections annotations
      | some m => m
    let errors := calc_errors detections annotations (some ms)
    .ok ((List.range detections.length).map (fun i =>
      let m := ms.getD i 0
      if 0 < errors.getD i 0 then intervals.getD (m + 1) 0
      else intervals.getD m 0))

/-- `calc_relative_errors(detections, annotations, matches)` (beats.py):
signed errors divided by the closest annotated interval. -/
def calc_relative_errors (detections annotations : List ℚ)
    (matchesOpt : Option (List ℕ)) : Except MadmomError (List ℚ) :=
  if detections.length = 0 then .ok []
  else if annotations.length < 2 then .error .beatIntervalError
  else do
    let ms := match matchesOpt with
      | none => find_closest_matches detections annotations
      | some m => m
    let errors := calc_errors detections annotations (some ms)
    let intervals ← find_closest_intervals detections annotations (some ms)
    .ok ((errors.zip intervals).map (fun p => p.1 / p.2))

example : calc_relative_errors [] [1] none = .ok [] := by decide

/-- Linear interpolation, `np.interp(x, xp, fp)` for increasing sample
positions `xp`: clamps to `fp.head` (resp. `fp.getLast`) outside the sampled
range and interpolates linearly between the two surrounding samples inside. -/
def interp (x : ℚ) : List ℚ → List ℚ → ℚ
  | x0 :: x1 :: xs, f0 :: f1 :: fs =>
    if x ≤ x0 then f0
    else if x ≤ x1 then f0 + (f1 - f0) * (x - x0) / (x1 - x0)
    else interp x (x1 :: xs) (f1 :: fs)
  | [_], [f0] => f0
  | _, _ => 0

/-- `np.arange(0, n)` as rationals. -/
def arangeQ (n : ℕ) : List ℚ := (List.range n).map (fun (k : ℕ) => (k : ℚ))

/-- `np.arange(0, n, 0.5)`: the `2 * n` half-integer steps below `n`. -/
def arangeHalf (n : ℕ) : List ℚ :=
  (List.range (2 * n)).map (fun (k : ℕ) => (k : ℚ) / 2)

/-- `np.arange(0, n, 1/3)`: the `3 * n` third-integer steps below `n`. -/
def arangeThird (n : ℕ) : List ℚ :=
  (List.range (3 * n)).map (fun (k : ℕ) => (k : ℚ) / 3)

/-- The double tempo sequence of `variations` (beats.py): empty for an empty
input, otherwise `np.interp(np.arange(0, len, 0.5)[:-1], np.arange(0, len),
sequence)` (one item less requested to avoid extrapolation). -/
def double_sequence (sequence : List ℚ) : List ℚ :=
  if sequence.length = 0 then []
  else ((arangeHalf sequence.length).dropLast).map
    (fun x => interp x (arangeQ sequence.length) sequence)

/-- The triple tempo sequence of `variations` (beats.py): empty for an empty
input, otherwise `np.interp(np.arange(0, len, 1/3)[:-2], np.arange(0, len),
sequence)` (two items less requested to avoid extrapolation). -/
def triple_sequence (sequence : List ℚ) : List ℚ :=
  if sequence.length = 0 then []
  else ((arangeThird sequence.length).dropLast.dropLast).map
    (fun x => interp x (arangeQ sequence.length) sequence)

/-- Python slice `l[start::step]`. -/
def sliceStep (l : List ℚ) (start step : ℕ) : List ℚ :=
  ((l.drop start).enum.filter (fun p => p.1 % step = 0)).map (fun p => p.2)

/-- `variations(sequence, offbeat, double, half, triple, third)` (beats.py):
the list of metrical variants of the given beat sequence, appended in the
fixed order offbeat, double, half pair, triple, third triplet. -/
def variations (sequence : List ℚ)
    (offbeat double half triple third : Bool) : List (List ℚ) :=
  let part1 :=
    if double || offbeat then
      (if offbeat then [sliceStep (double_sequence sequence) 1 2] else []) ++
      (if double then [double_sequence sequence] else [])
    else []
  let part2 :=
    if half then [sliceStep sequence 0 2, sliceStep sequence 1 2] else []
  let part3 := if triple then [triple_sequence sequence] else []
  let part4 :=
    if third then [sliceStep sequence 0 3, sliceStep sequence 1 3,
                   sliceStep sequence 2 3]
    else []
  part1 ++ part2 ++ part3 ++ part4

unseal Rat.add Rat.mul Rat.inv Rat.sub in
example : double_sequence [0, 1, 3] = [0, 1/2, 1, 2, 3] := by decide
unseal Rat.add Rat.mul Rat.inv Rat.sub in
example : triple_sequence [0, 3] = [0, 1, 2, 3] := by decide
unseal Rat.add Rat.mul Rat.inv Rat.sub in
example : variations [1, 2, 3, 4, 5] false false false false true =
    [[1, 4], [2, 5], [3]] := by decide
unseal Rat.add Rat.mul Rat.inv Rat.sub in
example : find_closest_intervals [0, 2, 10] [0, 1, 3] none = .ok [1, 2, 2] := by
  decide

/-- `np.median` of a non-empty list: middle element of the sorted list for odd
length, mean of the two middle elements for even length. -/
def median (l : List ℚ) : ℚ :=
  let s := List.insertionSort (· ≤ ·) l
  if l.length % 2 = 1 then s.getD (l.length / 2) 0
  else (s.getD (l.length / 2 - 1) 0 + s.getD (l.length / 2) 0) / 2

/-- `np.searchsorted(l, v)` (side='left') for a sorted list `l`: the number of
elements strictly below `v`. -/
def searchsorted (l : List ℚ) (v : ℚ) : ℕ := l.countP (fun x => decide (x < v))

/-- `np.intersect1d(a, b)`: the sorted unique values occurring in both. -/
def intersect1d (a b : List ℚ) : List ℚ :=
  List.insertionSort (· ≤ ·) ((a.filter (fun x => b.contains x)).dedup)

/-- `pscore(detections, annotations, tolerance)` (beats.py): the number of
detections within `tolerance * median(np.diff(annotations))` of their closest
annotations, normalized by the larger sequence length. -/
def pscore (detections annotations : List ℚ) (tolerance : ℚ) :
    Except MadmomError ℚ :=
  if detections.isEmpty && annotations.isEmpty then .ok 1
  else if detections.isEmpty != annotations.isEmpty then .ok 0
  else if annotations.length < 2 then .error .beatIntervalError
  else if tolerance ≤ 0 then .error .valueError
  else
    let window := tolerance * median (listDiffs annotations)
    let errors := calc_absolute_errors detections annotations none
    let p : ℚ := errors.countP (fun e => decide (e ≤ window))
    .ok (p / (max detections.length annotations.length : ℚ))

/-- `cemgil(detections, annotations, sigma)` (beats.py): sum of Gaussian
weights `exp(-err^2 / (2 sigma^2))` of the absolute errors to the closest
annotations, normalized by the mean of the two sequence lengths. -/
noncomputable def cemgil (detections annotations : List ℚ) (sigma : ℚ) :
    Except MadmomError ℝ :=
  if detections.isEmpty && annotations.isEmpty then .ok 1
  else if detections.isEmpty != annotations.isEmpty then .ok 0
  else if sigma ≤ 0 then .error .valueError
  else
    let errors := calc_absolute_errors detections annotations none
    let acc : ℝ :=
      (errors.map (fun e => Real.exp (-((e : ℝ) ^ 2) / (2 * (sigma : ℝ) ^ 2)))).sum
    .ok (acc / ((1 / 2) * ((annotations.length : ℝ) + (detections.length : ℝ))))

/-- Population variance, `np.var`.  The source compares `np.std(e) > sigma`;
for `sigma > 0` this is equivalent to `variance e > sigma ^ 2`, which keeps
the embedding inside the rationals. -/
def variance (l : List ℚ) : ℚ :=
  (l.map (fun x => (x - l.sum / (l.length : ℚ)) ^ 2)).sum / (l.length : ℚ)

/-- `goto(detections, annotations, threshold, sigma, mu)` (beats.py): binary
score that is 1 iff the longest run of annotations whose relative detection
errors stay within `threshold` covers at least a quarter of the annotations
and has mean absolute relative error at most `mu` and standard deviation of
the signed relative errors at most `sigma`. -/
def goto (detections annotations : List ℚ) (threshold sigma mu : ℚ) :
    Except MadmomError ℚ := do
  if detections.isEmpty && annotations.isEmpty then return 1
  if detections.isEmpty != annotations.isEmpty then return 0
  if annotations.length < 2 then throw .beatIntervalError
  if threshold ≤ 0 ∨ sigma ≤ 0 ∨ mu ≤ 0 then throw .valueError
  let closest := find_closest_matches annotations detections
  let errors ← calc_relative_errors detections annotations none
  let closest2 := closest.filter (fun c => decide (|errors.getD c 0| ≤ threshold))
  let (length, start) := find_longest_continuous_segment
    (closest2.map (fun (c : ℕ) => (c : ℤ)))
  if (length : ℚ) < (1 / 4) * (annotations.length : ℚ) then return 0
  let segment_errors := ((closest2.drop start).take length).map
    (fun c => errors.getD c 0)
  if (segment_errors.map (fun e => |e|)).sum / (segment_errors.length : ℚ) > mu then
    return 0
  if variance segment_errors > sigma ^ 2 then return 0
  return 1

/-- `cml(detections, annotations, phase_tolerance, tempo_tolerance)`
(beats.py): the continuity scores (CMLc, CMLt) at the true metrical level.  A
detection is correct when its absolute error is within `phase_tolerance`
times the closest annotation interval and its own backward interval is within
`tempo_tolerance` of that annotation interval; CMLc is the longest continuous
run of correct detections and CMLt the count of correct detections, both
normalized by the larger sequence length. -/
def cml (detections annotations : List ℚ) (phase_tolerance tempo_tolerance : ℚ) :
    Except MadmomError (ℚ × ℚ) := do
  if detections.isEmpty && annotations.isEmpty then return (1, 1)
  if detections.isEmpty != annotations.isEmpty then return (0, 0)
  if annotations.length < 2 then throw .beatIntervalError
  if detections.length < 2 then throw .beatIntervalError
  if tempo_tolerance ≤ 0 ∨ phase_tolerance ≤ 0 then throw .valueError
  let closest := find_closest_matches detections annotations
  let errors := calc_absolute_errors detections annotations (some closest)
  let det_interval ← calc_intervals detections false
  let ann_interval0 ← calc_intervals annotations false
  let ann_interval := closest.map (fun m => ann_interval0.getD m 0)
  let correct_phase := ((List.range detections.length).filter (fun i =>
    decide (errors.getD i 0 ≤ ann_interval.getD i 0 * phase_tolerance))).map
    (fun i => detections.getD i 0)
  let correct_tempo := ((List.range detections.length).filter (fun i =>
    decide (|1 - det_interval.getD i 0 / ann_interval.getD i 0| ≤
      tempo_tolerance))).map (fun i => detections.getD i 0)
  let correct := intersect1d correct_phase correct_tempo
  let correct_idx := correct.map (fun v => (searchsorted detections v : ℤ))
  let length : ℚ := (max detections.length annotations.length : ℕ)
  let (longest, _) := find_longest_continuous_segment correct_idx
  return ((longest : ℚ) / length, (correct.length : ℚ) / length)

/-- One step of the metrical-variant loop in `continuity` (beats.py): try
`cml` on a variant; a `BeatIntervalError` is caught and contributes nothing
(the source turns it into `NaN`, and Python's `max(x, nan)` is `x`); other
errors propagate. -/
def continuityStep (detections : List ℚ) (tempo_tolerance phase_tolerance : ℚ)
    (acc : Except MadmomError (ℚ × ℚ)) (sequence : List ℚ) :
    Except MadmomError (ℚ × ℚ) :=
  match acc with
  | .error e => .error e
  | .ok (amlc, amlt) =>
    match cml detections sequence tempo_tolerance phase_tolerance with
    | .ok (c, t) => .ok (max amlc c, max amlt t)
    | .error .beatIntervalError => .ok (amlc, amlt)
    | .error e => .error e

/-- `continuity(detections, annotations, phase_tolerance, tempo_tolerance,
offbeat, double, triple)` (beats.py): CMLc/CMLt at the true metrical level
and AMLc/AMLt as the maximum over the requested metrical variants.  Note the
source forwards its tolerances to `cml` positionally as
`cml(detections, ..., tempo_tolerance, phase_tolerance)`, i.e. with the two
roles swapped with respect to `cml`'s own signature. -/
def continuity (detections annotations : List ℚ)
    (phase_tolerance tempo_tolerance : ℚ) (offbeat double triple : Bool) :
    Except MadmomError (ℚ × ℚ × ℚ × ℚ) :=
  if detections.isEmpty && annotations.isEmpty then .ok (1, 1, 1, 1)
  else if detections.isEmpty != annotations.isEmpty then .ok (0, 0, 0, 0)
  else
    match cml detections annotations tempo_tolerance phase_tolerance with
    | .error e => .error e
    | .ok (cmlc, cmlt) =>
      if 1 / 2 < cmlc then .ok (cmlc, cmlt, cmlc, cmlt)
      else
        match (variations annotations offbeat double double triple
            triple).foldl
            (continuityStep detections tempo_tolerance phase_tolerance)
            (.ok (cmlc, cmlt)) with
        | .error e => .error e
        | .ok (amlc, amlt) => .ok (cmlc, cmlt, amlc, amlt)

unseal Rat.add Rat.mul Rat.inv Rat.sub in
example : cml [0, 1, 2, 3] [0, 1, 2, 3] (1/4) (1/4) = .ok (1, 1) := by decide
unseal Rat.add Rat.mul Rat.inv Rat.sub in
example :
    continuity [0, 1, 2, 3] [0, 1, 2, 3] (1/4) (1/4) true true true =
      .ok (1, 1, 1, 1) := by decide

/-- `np.linspace(a, b, n)`: `n` evenly spaced points from `a` to `b`. -/
def linspace (a b : ℚ) (n : ℕ) : List ℚ :=
  (List.range n).map (fun (k : ℕ) => a + (b - a) * (k : ℚ) / ((n : ℚ) - 1))

/-- `_histogram_bins(num_bins)` (beats.py): bin edges for the circular error
histogram, `num_bins + 2` edges from `-0.5 - offset` to `0.5 + offset` with
`offset = 0.5 / num_bins`; only even `num_bins ≥ 2` are allowed. -/
def histogram_bins (num_bins : ℕ) : Except MadmomError (List ℚ) :=
  if num_bins % 2 ≠ 0 ∨ num_bins < 2 then .error .valueError
  else
    let offset : ℚ := (1 / 2) / (num_bins : ℚ)
    .ok (linspace (-(1 / 2) - offset) (1 / 2 + offset) (num_bins + 2))

/-- Bin counts of `np.histogram(xs, edges)`: each bin is closed below and
open above, except the last bin which is closed on both sides. -/
def histCounts (xs : List ℚ) : List ℚ → List ℚ
  | e0 :: e1 :: rest =>
    (if rest.isEmpty then (xs.countP (fun x => decide (e0 ≤ x ∧ x ≤ e1)) : ℚ)
     else (xs.countP (fun x => decide (e0 ≤ x ∧ x < e1)) : ℚ)) ::
      histCounts xs (e1 :: rest)
  | _ => []

/-- `_error_histogram(detections, annotations, histogram_bins)` (beats.py):
relative errors folded into `(-0.5, 0.5]` by `np.mod(errors + 0.5, -1) + 0.5`
(`np.mod(y, -1) = y - ⌈y⌉`), then binned; the histogram is made circular by
adding the last bin to the first and dropping it. -/
def error_histogram (detections annotations : List ℚ)
    (histogramBins : List ℚ) : Except MadmomError (List ℚ) := do
  let errors ← calc_relative_errors detections annotations none
  let folded := errors.map (fun e => (e + 1 / 2) - (⌈e + 1 / 2⌉ : ℚ) + 1 / 2)
  let histogram := histCounts folded histogramBins
  return (histogram.headD 0 + histogram.getLastD 0) :: histogram.dropLast.tail

/-- `_entropy(error_histogram)` (beats.py): the histogram is normalized to
sum 1, zero entries are replaced by 1 (`1 * log2 1 = 0`), and the entropy is
`-Σ h * log2 h`. -/
noncomputable def entropy (error_hist : List ℚ) : ℝ :=
  let histogram := error_hist.map (fun v => v / error_hist.sum)
  let histogram2 := histogram.map (fun v => if v = 0 then 1 else v)
  Neg.neg ((histogram2.map (fun v => (v : ℝ) * Real.logb 2 (v : ℝ))).sum)

/-- `_information_gain(error_histogram)` (beats.py): `log2(len) - entropy`,
with entropy 0 for an all-zero histogram. -/
noncomputable def information_gain_hist (error_hist : List ℚ) : ℝ :=
  if error_hist.any (fun v => decide (v ≠ 0)) then
    Real.logb 2 (error_hist.length : ℝ) - entropy error_hist
  else Real.logb 2 (error_hist.length : ℝ) - 0

/-- `information_gain(detections, annotations, num_bins)` (beats.py): the
smaller of the information gains of the detections-vs-annotations and the
annotations-vs-detections error histograms, with the chosen histogram.  Both
empty sequences give the maximal gain `log2(num_bins)` with an all-zero
histogram; exactly one empty sequence gives gain 0 with a uniform histogram
summing to the larger length. -/
noncomputable def information_gain (detections annotations : List ℚ)
    (num_bins : ℕ) : Except MadmomError (ℝ × List ℚ) := by
  classical
  exact do
    if detections.isEmpty && annotations.isEmpty then
      return (Real.logb 2 (num_bins : ℝ), List.replicate num_bins 0)
    if detections.isEmpty || annotations.isEmpty then
      let max_length := max detections.length annotations.length
      return (0, List.replicate num_bins ((max_length : ℚ) / (num_bins : ℚ)))
    if detections.length < 2 ∨ annotations.length < 2 then
      throw .beatIntervalError
    let histogramBins ← histogram_bins num_bins
    let fwd_histogram ← error_histogram detections annotations histogramBins
    let fwd_ig := information_gain_hist fwd_histogram
    let bwd_histogram ← error_histogram annotations detections histogramBins
    let bwd_ig := information_gain_hist bwd_histogram
    if fwd_ig < bwd_ig then return (fwd_ig, fwd_histogram)
    else return (bwd_ig, bwd_histogram)

/-- The two-pointer matching loop of `onset_evaluation` (onsets.py) over the
sorted detections and annotations.  A detection within `window` of the
current annotation is a true positive (both pointers advance); an earlier
detection is a false positive; an earlier annotation is a false negative;
the final `else` branch (reached only when `d = a` and `|d - a| > window`)
raises `AssertionError`.  Events remaining after one side is exhausted
become false positives / false negatives. -/
def onsetLoop (window : ℚ) :
    List ℚ → List ℚ →
      Except MadmomError (List ℚ × List ℚ × List ℚ × List ℚ)
  | [], anns => .ok ([], [], anns, [])
  | d :: ds, [] => .ok ([], d :: ds, [], [])
  | d :: ds, a :: anns =>
    if |d - a| ≤ window then do
      let (tp, fp, fn, errors) ← onsetLoop window ds anns
      return (d :: tp, fp, fn, (d - a) :: errors)
    else if d < a then do
      let (tp, fp, fn, errors) ← onsetLoop window ds (a :: anns)
      return (tp, d :: fp, fn, errors)
    else if a < d then do
      let (tp, fp, fn, errors) ← onsetLoop window (d :: ds) anns
      return (tp, fp, a :: fn, errors)
    else .error .assertionError
termination_by ds anns => ds.length + anns.length

/-- `onset_evaluation(detections, annotations, window)` (onsets.py): runs the
two-pointer loop on the sorted sequences and checks the post conditions
`|TP| + |FP| = |detections|`, `|TP| + |FN| = |annotations|` and
`|TP| = |errors|`, raising `AssertionError` when one fails.  The returned
tuple is `(tp, fp, tn, fn, errors)` with `tn` always empty. -/
def onset_evaluation (detections annotations : List ℚ) (window : ℚ) :
    Except MadmomError (List ℚ × List ℚ × List ℚ × List ℚ × List ℚ) := do
  if detections.isEmpty && annotations.isEmpty then
    return ([], [], [], [], [])
  if annotations.isEmpty then return ([], detections, [], [], [])
  if detections.isEmpty then return ([], [], [], annotations, [])
  if window ≤ 0 then throw .valueError
  let det := List.insertionSort (· ≤ ·) detections
  let ann := List.insertionSort (· ≤ ·) annotations
  let (tp, fp, fn, errors) ← onsetLoop window det ann
  if tp.length + fp.length ≠ detections.length then throw .assertionError
  if tp.length + fn.length ≠ annotations.length then throw .assertionError
  if tp.length ≠ errors.length then throw .assertionError
  return (tp, fp, [], fn, errors)

/-! ## Specification-side descriptions -/

/-- Specification-side description of the run decomposition: the lengths of
the maximal blocks of consecutive integers (each step inside a block is
exactly `+1`), in order. -/
def runLengths : List ℤ → List ℕ
  | [] => []
  | [_] => [1]
  | a :: b :: t =>
    match runLengths (b :: t) with
    | [] => [1]
    | l :: ls => if b - a = 1 then (l + 1) :: ls else 1 :: l :: ls

/-- Specification-side description of `find_longest_continuous_segment`: the
longest run length together with the starting offset of the first run
attaining it (the offset is the total length of the earlier runs). -/
def longestRunSpec (s : List ℤ) : ℕ × ℕ :=
  let ls := runLengths s
  (ls.foldr max 0, (ls.take (argmaxFirst ls)).sum)

/-- Partial sums of a list of segment lengths, starting with 0 and ending
with the total. -/
def cumsum : List ℕ → List ℕ
  | [] => [0]
  | x :: xs => 0 :: (cumsum xs).map (fun v => x + v)

/-! ## Lemmas about the segment machinery -/

theorem segmentBoundaries_shift (l : List ℤ) :
    ∀ i, segmentBoundaries l (i + 1) = (segmentBoundaries l i).map (· + 1) := by
  induction l with
  | nil => intro i; rfl
  | cons d ds ih =>
    intro i
    by_cases h : d ≠ 1 <;> simp [segmentBoundaries, h, ih (i + 1)]

theorem cumsum_shape (L : List ℕ) : ∃ t, cumsum L = 0 :: t := by
  cases L <;> simp [cumsum]

theorem cumsum_length (L : List ℕ) : (cumsum L).length = L.length + 1 := by
  induction L with
  | nil => rfl
  | cons x xs ih => simp [cumsum, ih]

theorem listDiffs_map_add (x : ℕ) (l : List ℕ) :
    listDiffs (l.map (fun v => x + v)) = listDiffs l := by
  induction l with
  | nil => rfl
  | cons a t ih =>
    cases t with
    | nil => rfl
    | cons b t' =>
      simp only [List.map_cons, listDiffs, List.cons.injEq]
      exact ⟨by omega, by simpa using ih⟩

theorem listDiffs_cumsum (L : List ℕ) : listDiffs (cumsum L) = L := by
  induction L with
  | nil => rfl
  | cons x xs ih =>
    obtain ⟨t, ht⟩ := cumsum_shape xs
    calc listDiffs (cumsum (x :: xs))
        = listDiffs (0 :: (x + 0) :: (List.map (fun v => x + v) t)) := by
          simp [cumsum, ht]
      _ = (x + 0 - 0) :: listDiffs (List.map (fun v => x + v) (0 :: t)) := by
          simp [listDiffs]
      _ = x :: listDiffs (0 :: t) := by rw [listDiffs_map_add]; simp
      _ = x :: xs := by rw [← ht, ih]

theorem getD_map_add (x : ℕ) (l : List ℕ) (j : ℕ) (h : j < l.length) :
    (l.map (fun v => x + v)).getD j 0 = x + l.getD j 0 := by
  induction l generalizing j with
  | nil => simp at h
  | cons a t ih =>
    cases j with
    | zero => rfl
    | succ j => simpa using ih j (by simpa using h)

theorem argmaxFirst_le_length (l : List ℕ) : argmaxFirst l ≤ l.length := by
  induction l with
  | nil => simp [argmaxFirst]
  | cons x xs ih =>
    cases xs with
    | nil => simp [argmaxFirst]
    | cons y ys =>
      simp only [argmaxFirst]
      split
      · simp
      · simp only [List.length_cons] at ih ⊢
        omega

theorem cumsum_getD_sum (L : List ℕ) :
    ∀ k, k ≤ L.length → (cumsum L).getD k 0 = (L.take k).sum := by
  induction L with
  | nil =>
    intro k hk
    have hk0 : k = 0 := by simpa using hk
    subst hk0
    rfl
  | cons x xs ih =>
    intro k hk
    cases k with
    | zero => rfl
    | succ k =>
      have hk' : k ≤ xs.length := by simpa using hk
      have hlt : k < (cumsum xs).length := by rw [cumsum_length]; omega
      simp only [cumsum, List.getD_cons_succ, List.take_succ_cons, List.sum_cons]
      rw [getD_map_add x (cumsum xs) k hlt, ih k hk']

theorem runLengths_shape (a : ℤ) (t : List ℤ) :
    ∃ l ls, runLengths (a :: t) = l :: ls := by
  cases t with
  | nil => exact ⟨1, [], rfl⟩
  | cons b t' =>
    obtain ⟨l, ls, h⟩ := runLengths_shape b t'
    by_cases hd : b - a = 1
    · exact ⟨l + 1, ls, by simp [runLengths, h, hd]⟩
    · exact ⟨1, l :: ls, by simp [runLengths, h, hd]⟩

/-- The boundary list built by `find_longest_continuous_segment` is exactly
the partial-sum list of the run lengths. -/
theorem boundaries_eq_cumsum :
    ∀ s : List ℤ, s ≠ [] →
      0 :: segmentBoundaries (listDiffs s) 1 ++ [s.length] =
        cumsum (runLengths s)
  | [], h => absurd rfl h
  | [a], _ => rfl
  | a :: b :: t, _ => by
    have ih := boundaries_eq_cumsum (b :: t) (by simp)
    obtain ⟨l, ls, hrl⟩ := runLengths_shape b t
    have hshift : segmentBoundaries (listDiffs (b :: t)) 2 =
        (segmentBoundaries (listDiffs (b :: t)) 1).map (· + 1) :=
      segmentBoundaries_shift (listDiffs (b :: t)) 1
    have htail : segmentBoundaries (listDiffs (b :: t)) 1 ++
          [t.length + 1] = (cumsum ls).map (fun v => l + v) := by
      have h0 := ih
      rw [hrl] at h0
      simp only [cumsum, List.cons_append, List.length_cons] at h0
      exact (List.cons.inj h0).2
    by_cases hd : b - a = 1
    · have hrl2 : runLengths (a :: b :: t) = (l + 1) :: ls := by
        simp only [runLengths]
        rw [hrl]
        simp [hd]
      have hB : segmentBoundaries (listDiffs (a :: b :: t)) 1 =
          (segmentBoundaries (listDiffs (b :: t)) 1).map (· + 1) := by
        simp only [listDiffs, segmentBoundaries, hd, ne_eq, not_true_eq_false,
          if_false, ite_false]
        simpa using hshift
      rw [hrl2, hB]
      simp only [List.cons_append, List.length_cons]
      have hlift : (segmentBoundaries (listDiffs (b :: t)) 1).map (· + 1) ++
            [t.length + 1 + 1] =
          (segmentBoundaries (listDiffs (b :: t)) 1 ++
            [t.length + 1]).map (· + 1) := by
        simp
      rw [hlift, htail]
      simp only [cumsum, List.map_map, List.cons.injEq, true_and]
      apply List.map_congr_left
      intro v _
      simp only [Function.comp_apply]
      omega
    · have hrl2 : runLengths (a :: b :: t) = 1 :: l :: ls := by
        simp only [runLengths]
        rw [hrl]
        simp [hd]
      have hB : segmentBoundaries (listDiffs (a :: b :: t)) 1 =
          1 :: (segmentBoundaries (listDiffs (b :: t)) 1).map (· + 1) := by
        simp only [listDiffs, segmentBoundaries, hd, ne_eq, not_false_eq_true,
          if_true, ite_true]
        simpa using hshift
      rw [hrl2, hB]
      simp only [List.cons_append, List.length_cons]
      have hlift : (segmentBoundaries (listDiffs (b :: t)) 1).map (· + 1) ++
            [t.length + 1 + 1] =
          (segmentBoundaries (listDiffs (b :: t)) 1 ++
            [t.length + 1]).map (· + 1) := by
        simp
      rw [hlift, htail]
      simp only [cumsum, List.map_map, List.map_cons, List.cons.injEq, true_and]
      apply List.map_congr_left
      intro v _
      simp only [Function.comp_apply]
      omega

/-- The code's boundary/diff/argmax computation agrees with the
specification-side run decomposition. -/
theorem find_longest_eq_spec (s : List ℤ) :
    find_longest_continuous_segment s = longestRunSpec s := by
  rcases s with _ | ⟨a, t⟩
  · rfl
  · have hb := boundaries_eq_cumsum (a :: t) (by simp)
    simp only [find_longest_continuous_segment, longestRunSpec]
    rw [hb, listDiffs_cumsum, cumsum_getD_sum _ _ (argmaxFirst_le_length _)]

/-- C6: `find_longest_continuous_segment` splits its input into runs at every
position where consecutive entries differ by anything other than exactly 1 and
returns the length and starting offset of the longest run, ties resolving to
the first run; in particular it returns (3, 0) on [5,6,7,10,11] and (4, 3)
on [5,6,7,10,11,12,13]. -/
theorem find_longest_continuous_segment_correct :
    (∀ s : List ℤ, find_longest_continuous_segment s = longestRunSpec s) ∧
    find_longest_continuous_segment [5, 6, 7, 10, 11] = (3, 0) ∧
    find_longest_continuous_segment [5, 6, 7, 10, 11, 12, 13] = (4, 3) :=
  ⟨find_longest_eq_spec, by decide, by decide⟩

/-- C10: `find_longest_continuous_segment` applied to the empty sequence
returns length 0 and start offset 0 without raising any error. -/
theorem find_longest_continuous_segment_empty :
    find_longest_continuous_segment [] = (0, 0) := by decide

/-- C9: for an empty detection sequence, `find_closest_intervals` and
`calc_relative_errors` return an empty array without raising, even when the
annotation sequence has fewer than 2 elements: the empty-detections shortcut
is checked before the at-least-2-annotations requirement. -/
theorem empty_detections_shortcut :
    ∀ annotations : List ℚ,
      find_closest_intervals [] annotations none = .ok [] ∧
      calc_relative_errors [] annotations none = .ok [] :=
  fun _ => ⟨rfl, rfl⟩

/-! ## Onset evaluation invariants -/

theorem except_bind_ok {α β : Type} (a : α) (f : α → Except MadmomError β) :
    (Except.ok a >>= f) = f a := rfl

theorem onsetLoop_ok (w : ℚ) (hw : 0 < w) :
    ∀ n (ds anns : List ℚ), ds.length + anns.length ≤ n →
      ∃ tp fp fn errors,
        onsetLoop w ds anns = .ok (tp, fp, fn, errors) ∧
        tp.length + fp.length = ds.length ∧
        tp.length + fn.length = anns.length ∧
        tp.length = errors.length := by
  intro n
  induction n with
  | zero =>
    intro ds anns h
    have hd : ds = [] := List.length_eq_zero.mp (by omega)
    have ha : anns = [] := List.length_eq_zero.mp (by omega)
    subst hd; subst ha
    exact ⟨[], [], [], [], by simp [onsetLoop], rfl, rfl, rfl⟩
  | succ n ih =>
    intro ds anns h
    match ds, anns with
    | [], anns => exact ⟨[], [], anns, [], by simp [onsetLoop], rfl, by simp, rfl⟩
    | d :: ds, [] => exact ⟨[], d :: ds, [], [], by simp [onsetLoop], by simp, rfl, rfl⟩
    | d :: ds, a :: anns =>
      by_cases h1 : |d - a| ≤ w
      · obtain ⟨tp, fp, fn, errors, hok, e1, e2, e3⟩ :=
          ih ds anns (by simp at h ⊢; omega)
        refine ⟨d :: tp, fp, fn, (d - a) :: errors, ?_, by simp; omega,
          by simp; omega, by simp; omega⟩
        rw [onsetLoop]
        rw [if_pos h1, hok]
        rfl
      · by_cases h2 : d < a
        · obtain ⟨tp, fp, fn, errors, hok, e1, e2, e3⟩ :=
            ih ds (a :: anns) (by simp at h ⊢; omega)
          refine ⟨tp, d :: fp, fn, errors, ?_, by simp at e1 ⊢; omega,
            by simpa using e2, e3⟩
          rw [onsetLoop]
          rw [if_neg h1, if_pos h2, hok]
          rfl
        · by_cases h3 : a < d
          · obtain ⟨tp, fp, fn, errors, hok, e1, e2, e3⟩ :=
              ih (d :: ds) anns (by simp at h ⊢; omega)
            refine ⟨tp, fp, a :: fn, errors, ?_, by simpa using e1,
              by simp at e2 ⊢; omega, e3⟩
            rw [onsetLoop]
            rw [if_neg h1, if_neg h2, if_pos h3, hok]
            rfl
          · exfalso
            have hda : d = a := le_antisymm (not_lt.mp h3) (not_lt.mp h2)
            apply h1
            rw [hda]
            simpa using le_of_lt hw

/-- C3: for every window > 0, `onset_evaluation` succeeds and its result
satisfies `|TP| + |FP| = |detections|`, `|TP| + |FN| = |annotations|` and
`|TP| = |errors|`; in particular neither the degenerate-equality branch of
the pointer loop nor the post-hoc consistency checks can raise. -/
theorem onset_evaluation_invariants (d a : List ℚ) (w : ℚ) (hw : 0 < w) :
    ∃ tp fp tn fn errors,
      onset_evaluation d a w = .ok (tp, fp, tn, fn, errors) ∧
      tp.length + fp.length = d.length ∧
      tp.length + fn.length = a.length ∧
      tp.length = errors.length := by
  rcases hd : d.isEmpty with _ | _ <;> rcases ha : a.isEmpty with _ | _
  case false.false =>
    obtain ⟨tp, fp, fn, errors, hok, e1, e2, e3⟩ :=
      onsetLoop_ok w hw
        ((List.insertionSort (· ≤ ·) d).length +
          (List.insertionSort (· ≤ ·) a).length)
        (List.insertionSort (· ≤ ·) d) (List.insertionSort (· ≤ ·) a)
        le_rfl
    rw [List.length_insertionSort] at e1
    rw [List.length_insertionSort] at e2
    refine ⟨tp, fp, [], fn, errors, ?_, e1, e2, e3⟩
    rw [onset_evaluation]
    simp only [hd, ha, Bool.and_self, Bool.false_and, bne_self_eq_false,
      Bool.false_eq_true, if_false, ite_false]
    rw [if_neg (not_le.mpr hw)]
    rw [hok]
    simp only [except_bind_ok]
    rw [if_neg (by omega), if_neg (by omega), if_neg (by omega)]
    rfl
  case false.true =>
    have ha' : a = [] := List.isEmpty_iff.mp ha
    have hd' : d ≠ [] := by
      intro hnil
      rw [hnil] at hd
      simp at hd
    subst ha'
    refine ⟨[], d, [], [], [], ?_, by simp, by simp, by simp⟩
    rw [onset_evaluation]
    simp only [hd, ha]
    rfl
  case true.false =>
    have hd' : d = [] := List.isEmpty_iff.mp hd
    subst hd'
    refine ⟨[], [], [], a, [], ?_, by simp, by simp, by simp⟩
    rw [onset_evaluation]
    simp only [hd, ha]
    rfl
  case true.true =>
    have hd' : d = [] := List.isEmpty_iff.mp hd
    have ha' : a = [] := List.isEmpty_iff.mp ha
    subst hd'; subst ha'
    exact ⟨[], [], [], [], [], rfl, rfl, rfl, rfl⟩

/-- Witness for C3 at a concrete input. -/
theorem onset_evaluation_invariants_witness :
    (0 : ℚ) < 1 ∧ ∃ tp fp tn fn errors,
      onset_evaluation [1] [1] 1 = .ok (tp, fp, tn, fn, errors) ∧
      tp.length + fp.length = 1 ∧
      tp.length + fn.length = 1 ∧
      tp.length = errors.length :=
  ⟨one_pos, by simpa using onset_evaluation_invariants [1] [1] 1 one_pos⟩

/-! ## Closest-match lemmas -/

theorem foldr_min_swap (ys : List ℚ) :
    ∀ x y : ℚ, List.foldr min x (y :: ys) = min x (List.foldr min y ys) := by
  induction ys with
  | nil => intro x y; simp [min_comm]
  | cons z zs ih =>
    intro x y
    calc List.foldr min x (y :: z :: zs)
        = min y (List.foldr min x (z :: zs)) := by simp
      _ = min y (min x (List.foldr min z zs)) := by rw [ih x z]
      _ = min x (min y (List.foldr min z zs)) := min_left_comm y x _
      _ = min x (List.foldr min y (z :: zs)) := by rw [← ih y z]

theorem listMin_cons_cons (x y : ℚ) (ys : List ℚ) :
    listMin (x :: y :: ys) = min x (listMin (y :: ys)) :=
  foldr_min_swap ys x y

theorem argminFirst_lt_length : ∀ l : List ℚ, l ≠ [] → argminFirst l < l.length := by
  intro l
  induction l with
  | nil => intro h; exact absurd rfl h
  | cons x xs ih =>
    intro _
    cases xs with
    | nil => simp [argminFirst]
    | cons y ys =>
      simp only [argminFirst]
      split
      · simp
      · have := ih (by simp)
        simp only [List.length_cons] at this ⊢
        omega

theorem getD_argminFirst : ∀ l : List ℚ, l ≠ [] →
    l.getD (argminFirst l) 0 = listMin l := by
  intro l
  induction l with
  | nil => intro h; exact absurd rfl h
  | cons x xs ih =>
    intro _
    cases xs with
    | nil => rfl
    | cons y ys =>
      rw [listMin_cons_cons]
      simp only [argminFirst]
      split
      case isTrue h => simpa using (min_eq_left h).symm
      case isFalse h =>
        rw [List.getD_cons_succ, ih (by simp)]
        exact (min_eq_right (le_of_not_le h)).symm

theorem find_closest_matches_getD_lt (q r : List ℚ) (hr : r ≠ []) (i : ℕ)
    (hi : i < q.length) :
    (find_closest_matches q r).getD i 0 < r.length := by
  have hlen : (find_closest_matches q r).length = q.length := by
    simp [find_closest_matches]
  rw [List.getD_eq_getElem _ _ (by omega)]
  simp only [find_closest_matches, List.getElem_map]
  have := argminFirst_lt_length (r.map (fun s => |q[i] - s|)) (by simpa using hr)
  simpa using this

theorem calc_errors_getD (d a : List ℚ) (ms : List ℕ)
    (hms : ms.length = d.length) (i : ℕ) (hi : i < d.length) :
    (calc_errors d a (some ms)).getD i 0 =
      d.getD i 0 - a.getD (ms.getD i 0) 0 := by
  simp only [calc_errors]
  have h1 : i < ((d.zip ms).map
      (fun p => p.1 - a.getD p.2 0)).length := by
    simp only [List.length_map, List.length_zip]
    omega
  rw [List.getD_eq_getElem _ _ h1, List.getElem_map, List.getElem_zip,
    List.getD_eq_getElem d _ hi, List.getD_eq_getElem ms _ (by omega)]

/-! ## Closest-interval correctness (C4) -/

theorem listDiffs_length {α : Type} [Sub α] :
    ∀ l : List α, (listDiffs l).length = l.length - 1
  | [] => rfl
  | [_] => rfl
  | a :: b :: t => by
    have := listDiffs_length (b :: t)
    simp only [listDiffs, List.length_cons] at this ⊢
    omega

theorem listDiffs_getD :
    ∀ (l : List ℚ) (j : ℕ), j + 1 < l.length →
      (listDiffs l).getD j 0 = l.getD (j + 1) 0 - l.getD j 0
  | [], j, h => by simp at h
  | [_], j, h => by simp at h
  | a :: b :: t, 0, _ => rfl
  | a :: b :: t, j + 1, h => by
    have := listDiffs_getD (b :: t) j (by simpa using h)
    simpa [listDiffs] using this

theorem headD_eq_getD (l : List ℚ) : l.headD 0 = l.getD 0 0 := by
  cases l <;> rfl

theorem getLastD_eq_getD :
    ∀ l : List ℚ, l ≠ [] → l.getLastD 0 = l.getD (l.length - 1) 0
  | [], h => absurd rfl h
  | [_], _ => rfl
  | a :: b :: t, _ => by
    have := getLastD_eq_getD (b :: t) (by simp)
    simpa using this

/-- Specification-side description of the closest-interval array entries of
`find_closest_intervals`: interior entries are the successive annotation
differences, the two boundary entries copy their nearest interior entry. -/
def closestIntervalSpec (annotations : List ℚ) (j : ℕ) : ℚ :=
  let k := min (max j 1) (annotations.length - 1)
  annotations.getD k 0 - annotations.getD (k - 1) 0

theorem intervals_getD (a : List ℚ) (hlen : 2 ≤ a.length) :
    ∀ j ≤ a.length,
      ((listDiffs a).headD 0 ::
        (listDiffs a ++ [(listDiffs a).getLastD 0])).getD j 0 =
      closestIntervalSpec a j := by
  have hg : (listDiffs a).length = a.length - 1 := listDiffs_length a
  have hgne : listDiffs a ≠ [] := by
    intro h
    rw [h] at hg
    simp at hg
    omega
  intro j hj
  match j with
  | 0 =>
    rw [List.getD_cons_zero, headD_eq_getD,
      listDiffs_getD a 0 (by omega)]
    simp only [closestIntervalSpec]
    have : min (max 0 1) (a.length - 1) = 1 := by omega
    rw [this]
  | j + 1 =>
    rw [List.getD_cons_succ]
    by_cases hja : j < (listDiffs a).length
    · rw [List.getD_append _ _ _ _ hja, listDiffs_getD a j (by omega)]
      simp only [closestIntervalSpec]
      have : min (max (j + 1) 1) (a.length - 1) = j + 1 := by omega
      rw [this]
      simp
    · have hje : j = (listDiffs a).length := by omega
      rw [List.getD_append_right _ _ _ _ (by omega)]
      rw [hje]
      simp only [Nat.sub_self, List.getD_cons_zero]
      rw [getLastD_eq_getD _ hgne, listDiffs_getD a ((listDiffs a).length - 1)
        (by omega)]
      simp only [closestIntervalSpec]
      congr 1 <;> congr 1 <;> omega

/-- C4: for every sorted annotation sequence with at least 2 elements and
every detection sequence, `find_closest_intervals` succeeds and returns, for
each detection, the interval to the next annotation when the signed error
against the closest annotation is positive and the interval from the previous
annotation otherwise, where the interval array entries are the successive
annotation differences with the two boundary entries copying their nearest
interior entry; a result is returned even for detections outside the
annotation span. -/
theorem find_closest_intervals_correct (detections annotations : List ℚ)
    (_hsorted : annotations.Sorted (· ≤ ·)) (hlen : 2 ≤ annotations.length) :
    find_closest_intervals detections annotations none =
      .ok ((List.range detections.length).map (fun i =>
        if 0 < detections.getD i 0 -
            annotations.getD
              ((find_closest_matches detections annotations).getD i 0) 0 then
          closestIntervalSpec annotations
            ((find_closest_matches detections annotations).getD i 0 + 1)
        else
          closestIntervalSpec annotations
            ((find_closest_matches detections annotations).getD i 0))) := by
  by_cases hd0 : detections.length = 0
  · simp only [find_closest_intervals, if_pos hd0, hd0]
    rfl
  · simp only [find_closest_intervals, if_neg hd0,
      if_neg (by omega : ¬annotations.length < 2), Except.ok.injEq]
    apply List.map_congr_left
    intro i hi
    have hi' : i < detections.length := List.mem_range.mp hi
    have hms : (find_closest_matches detections annotations).length =
        detections.length := by simp [find_closest_matches]
    have hmi : (find_closest_matches detections annotations).getD i 0 <
        annotations.length :=
      find_closest_matches_getD_lt detections annotations
        (by intro h; rw [h] at hlen; simp at hlen) i hi'
    rw [calc_errors_getD detections annotations _ hms i hi']
    rw [intervals_getD annotations hlen
      ((find_closest_matches detections annotations).getD i 0 + 1) (by omega)]
    rw [intervals_getD annotations hlen
      ((find_closest_matches detections annotations).getD i 0) (by omega)]

unseal Rat.add Rat.mul Rat.inv Rat.sub in
/-- Witness for C4 at a concrete input. -/
theorem find_closest_intervals_correct_witness :
    ([0, 1, 3] : List ℚ).Sorted (· ≤ ·) ∧ 2 ≤ ([0, 1, 3] : List ℚ).length ∧
    find_closest_intervals [2, 10] [0, 1, 3] none =
      .ok ((List.range ([2, 10] : List ℚ).length).map (fun i =>
        if 0 < ([2, 10] : List ℚ).getD i 0 -
            ([0, 1, 3] : List ℚ).getD
              ((find_closest_matches [2, 10] [0, 1, 3]).getD i 0) 0 then
          closestIntervalSpec [0, 1, 3]
            ((find_closest_matches [2, 10] [0, 1, 3]).getD i 0 + 1)
        else
          closestIntervalSpec [0, 1, 3]
            ((find_closest_matches [2, 10] [0, 1, 3]).getD i 0))) :=
  ⟨by decide, by decide,
    find_closest_intervals_correct [2, 10] [0, 1, 3] (by decide) (by decide)⟩

/-! ## P-score correctness (C5) -/

theorem zip_self_map {α β : Type} (f : α → β) :
    ∀ l : List α, l.zip (l.map f) = l.map (fun x => (x, f x))
  | [] => rfl
  | x :: xs => by simp [zip_self_map f xs]

theorem abs_error_eq_listMin (x : ℚ) (a : List ℚ) (ha : a ≠ []) :
    |x - a.getD (argminFirst (a.map (fun r => |x - r|))) 0| =
      listMin (a.map (fun r => |x - r|)) := by
  have hne : a.map (fun r => |x - r|) ≠ [] := by simpa using ha
  have hlt := argminFirst_lt_length _ hne
  have hgd := getD_argminFirst _ hne
  rw [← hgd, List.getD_eq_getElem _ _ hlt, List.getElem_map,
    List.getD_eq_getElem _ _ (by simpa using hlt)]

theorem calc_absolute_errors_closest (d a : List ℚ) :
    calc_absolute_errors d a none =
      d.map (fun x =>
        |x - a.getD (argminFirst (a.map (fun r => |x - r|))) 0|) := by
  simp only [calc_absolute_errors, calc_errors, find_closest_matches]
  rw [zip_self_map]
  simp [List.map_map, Function.comp]

/-- C5: for a non-empty detection sequence, a sorted annotation sequence with
at least 2 elements and a positive tolerance, `pscore` returns the number of
detections whose minimal absolute distance to the annotations is at most
`tolerance * median(annotation intervals)`, divided by the larger sequence
length. -/
theorem pscore_correct (detections annotations : List ℚ) (tolerance : ℚ)
    (hd : detections ≠ []) (_hsorted : annotations.Sorted (· ≤ ·))
    (hlen : 2 ≤ annotations.length) (htol : 0 < tolerance) :
    pscore detections annotations tolerance =
      .ok (((detections.countP (fun x =>
          decide (listMin (annotations.map (fun r => |x - r|)) ≤
            tolerance * median (listDiffs annotations)))) : ℚ) /
        ((max detections.length annotations.length : ℕ) : ℚ)) := by
  have hane : annotations ≠ [] := by
    intro h
    rw [h] at hlen
    simp at hlen
  have hde : detections.isEmpty = false := by simpa using hd
  have hae : annotations.isEmpty = false := by simpa using hane
  rw [pscore]
  rw [if_neg (by simp [hde, hae]), if_neg (by simp [hde, hae]),
    if_neg (by omega : ¬annotations.length < 2), if_neg (not_le.mpr htol)]
  simp only [calc_absolute_errors_closest, List.countP_map, Except.ok.injEq]
  rw [Nat.cast_max]
  congr 2
  apply List.countP_congr
  intro x _
  simp only [Function.comp_apply]
  rw [abs_error_eq_listMin x annotations hane]

unseal Rat.add Rat.mul Rat.inv Rat.sub in
/-- Witness for C5 at a concrete input. -/
theorem pscore_correct_witness :
    ([1, 2] : List ℚ) ≠ [] ∧ ([0, 1, 3] : List ℚ).Sorted (· ≤ ·) ∧
    2 ≤ ([0, 1, 3] : List ℚ).length ∧ (0 : ℚ) < 1/2 ∧
    pscore [1, 2] [0, 1, 3] (1/2) =
      .ok (((([1, 2] : List ℚ).countP (fun x =>
          decide (listMin (([0, 1, 3] : List ℚ).map (fun r => |x - r|)) ≤
            (1/2) * median (listDiffs [0, 1, 3])))) : ℚ) /
        ((max ([1, 2] : List ℚ).length ([0, 1, 3] : List ℚ).length : ℕ) : ℚ)) :=
  ⟨by decide, by decide, by decide, by decide,
    pscore_correct [1, 2] [0, 1, 3] (1/2) (by decide) (by decide) (by decide)
      (by decide)⟩

/-! ## Continuity monotonicity (C7) -/

theorem continuityStep_error (d : List ℚ) (tt pt : ℚ) (e : MadmomError)
    (s : List ℚ) : continuityStep d tt pt (.error e) s = .error e := rfl

theorem foldl_continuityStep_error (d : List ℚ) (tt pt : ℚ) (e : MadmomError) :
    ∀ ss : List (List ℚ),
      ss.foldl (continuityStep d tt pt) (.error e) = .error e := by
  intro ss
  induction ss with
  | nil => rfl
  | cons s ss ih => rw [List.foldl_cons, continuityStep_error]; exact ih

theorem foldl_continuityStep_mono (d : List ℚ) (tt pt : ℚ) :
    ∀ (seqs : List (List ℚ)) (x y u v : ℚ),
      seqs.foldl (continuityStep d tt pt) (.ok (x, y)) = .ok (u, v) →
      x ≤ u ∧ y ≤ v := by
  intro seqs
  induction seqs with
  | nil =>
    intro x y u v h
    rw [List.foldl_nil] at h
    injection h with h
    rw [Prod.mk.injEq] at h
    exact ⟨le_of_eq h.1, le_of_eq h.2⟩
  | cons s ss ih =>
    intro x y u v h
    rw [List.foldl_cons] at h
    rcases hcml : cml d s tt pt with e2 | ⟨c, t⟩
    · cases e2 with
      | beatIntervalError =>
        have hs : continuityStep d tt pt (.ok (x, y)) s = .ok (x, y) := by
          simp [continuityStep, hcml]
        rw [hs] at h
        exact ih x y u v h
      | valueError =>
        have hs : continuityStep d tt pt (.ok (x, y)) s =
            .error .valueError := by simp [continuityStep, hcml]
        rw [hs, foldl_continuityStep_error] at h
        exact absurd h (by simp)
      | assertionError =>
        have hs : continuityStep d tt pt (.ok (x, y)) s =
            .error .assertionError := by simp [continuityStep, hcml]
        rw [hs, foldl_continuityStep_error] at h
        exact absurd h (by simp)
    · have hs : continuityStep d tt pt (.ok (x, y)) s =
          .ok (max x c, max y t) := by simp [continuityStep, hcml]
      rw [hs] at h
      obtain ⟨h1, h2⟩ := ih _ _ _ _ h
      exact ⟨le_trans (le_max_left x c) h1, le_trans (le_max_left y t) h2⟩

/-- C7: whenever `continuity` returns a result (cmlc, cmlt, amlc, amlt), the
allowed-metrical-level scores dominate the correct-metrical-level scores:
amlc ≥ cmlc and amlt ≥ cmlt, including under the CMLc > 0.5 short-circuit and
with failing metrical variants treated as non-contributing. -/
theorem continuity_aml_ge_cml (detections annotations : List ℚ)
    (phase_tolerance tempo_tolerance : ℚ) (offbeat double triple : Bool)
    (c1 c2 c3 c4 : ℚ)
    (h : continuity detections annotations phase_tolerance tempo_tolerance
      offbeat double triple = .ok (c1, c2, c3, c4)) :
    c1 ≤ c3 ∧ c2 ≤ c4 := by
  rw [continuity] at h
  by_cases hb : (detections.isEmpty && annotations.isEmpty) = true
  · rw [if_pos hb] at h
    injection h with h
    rw [Prod.mk.injEq, Prod.mk.injEq, Prod.mk.injEq] at h
    obtain ⟨e1, e2, e3, e4⟩ := h
    subst e1; subst e2; subst e3; subst e4
    exact ⟨le_refl _, le_refl _⟩
  · rw [if_neg hb] at h
    by_cases hx : (detections.isEmpty != annotations.isEmpty) = true
    · rw [if_pos hx] at h
      injection h with h
      rw [Prod.mk.injEq, Prod.mk.injEq, Prod.mk.injEq] at h
      obtain ⟨e1, e2, e3, e4⟩ := h
      subst e1; subst e2; subst e3; subst e4
      exact ⟨le_refl _, le_refl _⟩
    · rw [if_neg hx] at h
      rcases hcml : cml detections annotations tempo_tolerance phase_tolerance
        with e | ⟨cc, ct⟩ <;> rw [hcml] at h
      · exact absurd h (by simp)
      · dsimp only at h
        by_cases hlt : (1 : ℚ) / 2 < cc
        · rw [if_pos hlt] at h
          injection h with h
          rw [Prod.mk.injEq, Prod.mk.injEq, Prod.mk.injEq] at h
          obtain ⟨e1, e2, e3, e4⟩ := h
          subst e1; subst e2; subst e3; subst e4
          exact ⟨le_refl _, le_refl _⟩
        · rw [if_neg hlt] at h
          rcases hfold : (variations annotations offbeat double double triple
              triple).foldl
              (continuityStep detections tempo_tolerance phase_tolerance)
              (.ok (cc, ct)) with e | ⟨ac, av⟩ <;> rw [hfold] at h
          · exact absurd h (by simp)
          · injection h with h
            rw [Prod.mk.injEq, Prod.mk.injEq, Prod.mk.injEq] at h
            obtain ⟨e1, e2, e3, e4⟩ := h
            subst e1; subst e2; subst e3; subst e4
            exact foldl_continuityStep_mono detections tempo_tolerance
              phase_tolerance _ _ _ _ _ hfold

unseal Rat.add Rat.mul Rat.inv Rat.sub in
/-- Witness for C7 at a concrete input. -/
theorem continuity_aml_ge_cml_witness : (1 : ℚ) ≤ 1 ∧ (1 : ℚ) ≤ 1 :=
  continuity_aml_ge_cml [0, 1, 2, 3] [0, 1, 2, 3] (1/4) (1/4) true true true
    1 1 1 1 (by decide)

/-! ## Double-tempo variation correctness (C8) -/

/-- Specification-side description of the double-tempo sequence: the original
events interleaved with the midpoints of each pair of adjacent events. -/
def doubleSpec : List ℚ → List ℚ
  | [] => []
  | [a] => [a]
  | a :: b :: t => a :: (a + b) / 2 :: doubleSpec (b :: t)

theorem interp_shift : ∀ (xp fp : List ℚ) (x : ℚ),
    interp (x + 1) (xp.map (· + 1)) fp = interp x xp fp
  | [], [], _ => rfl
  | [], _ :: _, _ => rfl
  | [_], [], _ => rfl
  | [_], [_], _ => rfl
  | [_], _ :: _ :: _, _ => rfl
  | _ :: _ :: _, [], _ => rfl
  | _ :: _ :: _, [_], _ => rfl
  | x0 :: x1 :: xs, f0 :: f1 :: fs, x => by
    rw [List.map_cons, List.map_cons]
    simp only [interp]
    by_cases h0 : x ≤ x0
    · rw [if_pos (by linarith), if_pos h0]
    · rw [if_neg (by intro hc; exact h0 (by linarith)),
        if_neg h0]
      by_cases h1 : x ≤ x1
      · rw [if_pos (by linarith), if_pos h1]
        ring_nf
      · rw [if_neg (by intro hc; exact h1 (by linarith)), if_neg h1]
        exact interp_shift (x1 :: xs) (f1 :: fs) x

theorem arangeQ_succ (n : ℕ) :
    arangeQ (n + 1) = 0 :: (arangeQ n).map (· + 1) := by
  simp only [arangeQ, List.range_succ_eq_map, List.map_cons, List.map_map,
    Nat.cast_zero]
  congr 1
  apply List.map_congr_left
  intro k _
  simp [Nat.succ_eq_add_one]

theorem arangeHalf_dropLast_succ (n : ℕ) :
    (arangeHalf (n + 2)).dropLast =
      0 :: (1 / 2 : ℚ) :: ((arangeHalf (n + 1)).dropLast).map (· + 1) := by
  have hdl : ∀ m : ℕ, (arangeHalf (m + 1)).dropLast =
      (List.range (2 * m + 1)).map (fun (k : ℕ) => (k : ℚ) / 2) := by
    intro m
    have h2 : 2 * (m + 1) = (2 * m + 1) + 1 := by ring
    rw [arangeHalf, h2, List.range_succ, List.map_append]
    simp only [List.map_cons, List.map_nil]
    rw [List.dropLast_concat]
  rw [show n + 2 = (n + 1) + 1 from rfl, hdl (n + 1), hdl n]
  have h3 : 2 * (n + 1) + 1 = (2 * n + 1) + 1 + 1 := by ring
  rw [h3, List.range_succ_eq_map, List.range_succ_eq_map]
  simp only [List.map_cons, List.map_map, List.cons.injEq]
  refine ⟨by norm_num, by norm_num, ?_⟩
  apply List.map_congr_left
  intro k _
  simp only [Function.comp_apply]
  push_cast
  ring

theorem interp_zero (xp2 : List ℚ) (f1 : ℚ) (fs : List ℚ)
    (h : xp2.length = fs.length) : interp 0 (0 :: xp2) (f1 :: fs) = f1 := by
  cases xp2 with
  | nil =>
    cases fs with
    | nil => rfl
    | cons g gs => simp at h
  | cons y ys =>
    cases fs with
    | nil => simp at h
    | cons g gs =>
      simp only [interp]
      rw [if_pos le_rfl]

theorem interp_zero_arange (n : ℕ) (f1 : ℚ) (fs : List ℚ)
    (h : fs.length = n) : interp 0 (arangeQ (n + 1)) (f1 :: fs) = f1 := by
  rw [arangeQ_succ n]
  exact interp_zero _ f1 fs (by simp [arangeQ, h])

theorem interp_half (n : ℕ) (a b : ℚ) (t : List ℚ) :
    interp (1 / 2) (arangeQ (n + 2)) (a :: b :: t) = (a + b) / 2 := by
  rw [show n + 2 = (n + 1) + 1 from rfl, arangeQ_succ (n + 1), arangeQ_succ n]
  simp only [List.map_cons, interp]
  rw [if_neg (by norm_num), if_pos (by norm_num)]
  ring

theorem interp_step (x : ℚ) (hx : 0 ≤ x) (n : ℕ) (a : ℚ) (fp : List ℚ)
    (hlen : fp.length = n + 1) :
    interp (x + 1) (arangeQ (n + 2)) (a :: fp) =
      interp x (arangeQ (n + 1)) fp := by
  match fp, hlen with
  | f1 :: fs, hlen =>
  have hfs : fs.length = n := by simpa using hlen
  rw [show n + 2 = (n + 1) + 1 from rfl, arangeQ_succ (n + 1)]
  nth_rewrite 1 [arangeQ_succ n]
  simp only [List.map_cons, interp]
  rw [if_neg (by linarith : ¬x + 1 ≤ 0)]
  by_cases hx0 : x ≤ 0
  · have hx00 : x = 0 := le_antisymm hx0 hx
    subst hx00
    rw [if_pos (by norm_num), interp_zero_arange n f1 fs hfs]
    norm_num
  · rw [if_neg (by intro hc; exact hx0 (by linarith))]
    rw [show ((0 : ℚ) + 1) :: ((arangeQ n).map (· + 1)).map (· + 1) =
        ((0 :: (arangeQ n).map (· + 1)).map (· + 1)) from by simp]
    rw [← arangeQ_succ n, interp_shift]

theorem arangeHalf_dropLast_nonneg (m : ℕ) :
    ∀ x ∈ (arangeHalf m).dropLast, 0 ≤ x := by
  intro x hx
  have hx2 := List.dropLast_subset _ hx
  simp only [arangeHalf, List.mem_map] at hx2
  obtain ⟨k, _, rfl⟩ := hx2
  positivity

/-- The code's double-tempo sequence equals the interleaving description. -/
theorem double_sequence_eq_doubleSpec :
    ∀ s : List ℚ, double_sequence s = doubleSpec s
  | [] => rfl
  | [a] => rfl
  | a :: b :: t => by
    have ih := double_sequence_eq_doubleSpec (b :: t)
    rw [show doubleSpec (a :: b :: t) = a :: (a + b) / 2 :: doubleSpec (b :: t)
      from rfl]
    rw [double_sequence, if_neg (by simp)]
    simp only [List.length_cons]
    rw [arangeHalf_dropLast_succ t.length]
    simp only [List.map_cons, List.cons.injEq]
    refine ⟨interp_zero_arange (t.length + 1) a (b :: t) (by simp),
      interp_half t.length a b t, ?_⟩
    rw [← ih, double_sequence, if_neg (by simp)]
    simp only [List.length_cons, List.map_map]
    apply List.map_congr_left
    intro x hxm
    simp only [Function.comp_apply]
    exact interp_step x (arangeHalf_dropLast_nonneg (t.length + 1) x hxm)
      t.length a (b :: t) (by simp)

theorem doubleSpec_length :
    ∀ s : List ℚ, s ≠ [] → (doubleSpec s).length = 2 * s.length - 1
  | [], h => absurd rfl h
  | [_], _ => rfl
  | a :: b :: t, _ => by
    have := doubleSpec_length (b :: t) (by simp)
    simp only [doubleSpec, List.length_cons] at this ⊢
    omega

theorem doubleSpec_even :
    ∀ (s : List ℚ) (i : ℕ), i < s.length →
      (doubleSpec s).getD (2 * i) 0 = s.getD i 0
  | [], i, h => by simp at h
  | [_], 0, _ => rfl
  | [_], i + 1, h => by simp at h
  | a :: b :: t, 0, _ => rfl
  | a :: b :: t, i + 1, h => by
    have ih := doubleSpec_even (b :: t) i (by simpa using h)
    rw [show doubleSpec (a :: b :: t) = a :: (a + b) / 2 :: doubleSpec (b :: t)
      from rfl]
    rw [show 2 * (i + 1) = (2 * i) + 1 + 1 by ring]
    rw [List.getD_cons_succ, List.getD_cons_succ, ih, List.getD_cons_succ]

theorem doubleSpec_odd :
    ∀ (s : List ℚ) (i : ℕ), i + 1 < s.length →
      (doubleSpec s).getD (2 * i + 1) 0 = (s.getD i 0 + s.getD (i + 1) 0) / 2
  | [], i, h => by simp at h
  | [_], i, h => by simp at h
  | a :: b :: t, 0, _ => rfl
  | a :: b :: t, i + 1, h => by
    have ih := doubleSpec_odd (b :: t) i (by simpa using h)
    rw [show doubleSpec (a :: b :: t) = a :: (a + b) / 2 :: doubleSpec (b :: t)
      from rfl]
    rw [show 2 * (i + 1) + 1 = (2 * i + 1) + 1 + 1 by ring]
    rw [List.getD_cons_succ, List.getD_cons_succ, ih]
    simp only [List.getD_cons_succ]

/-- C8: the double-tempo variant of a sequence of length n ≥ 1 has length
2n - 1, equals the original sequence at even positions and holds the midpoint
of the two adjacent original events at odd positions; on an empty input,
every variant produced by `variations` is empty and no error is raised. -/
theorem variations_double_correct :
    (∀ s : List ℚ, s ≠ [] →
      (double_sequence s).length = 2 * s.length - 1 ∧
      (∀ i, i < s.length →
        (double_sequence s).getD (2 * i) 0 = s.getD i 0) ∧
      (∀ i, i + 1 < s.length →
        (double_sequence s).getD (2 * i + 1) 0 =
          (s.getD i 0 + s.getD (i + 1) 0) / 2)) ∧
    (∀ offbeat double half triple third : Bool,
      ∀ v ∈ variations [] offbeat double half triple third, v = []) := by
  constructor
  · intro s hs
    rw [double_sequence_eq_doubleSpec]
    exact ⟨doubleSpec_length s hs, doubleSpec_even s, doubleSpec_odd s⟩
  · decide

unseal Rat.add Rat.mul Rat.inv Rat.sub in
/-- Witness for C8 at a concrete input. -/
theorem variations_double_correct_witness :
    ([1, 3] : List ℚ) ≠ [] ∧
    (double_sequence [1, 3]).length = 2 * ([1, 3] : List ℚ).length - 1 ∧
    0 + 1 < ([1, 3] : List ℚ).length ∧
    (double_sequence [1, 3]).getD (2 * 0 + 1) 0 =
      (([1, 3] : List ℚ).getD 0 0 + ([1, 3] : List ℚ).getD (0 + 1) 0) / 2 :=
  ⟨by decide, (variations_double_correct.1 [1, 3] (by decide)).1, by decide,
    (variations_double_correct.1 [1, 3] (by decide)).2.2 0 (by decide)⟩

/-! ## Parameter roles of continuity vs cml (C1) -/

set_option maxRecDepth 100000 in
unseal Rat.add Rat.mul Rat.inv Rat.sub in
/-- C1: `continuity` forwards its tolerances to `cml` positionally swapped.
At this input, `cml` with phase tolerance 1/2 and tempo tolerance 1/100
scores (1, 1), while `continuity` called with the same phase tolerance 1/2
and tempo tolerance 1/100 reports CMLc/CMLt (0, 0) — the value of `cml` with
the two tolerances exchanged. -/
theorem continuity_swaps_tolerances :
    cml [3/10, 13/10, 23/10, 33/10] [0, 1, 2, 3] (1/2) (1/100) =
      .ok (1, 1) ∧
    cml [3/10, 13/10, 23/10, 33/10] [0, 1, 2, 3] (1/100) (1/2) =
      .ok (0, 0) ∧
    continuity [3/10, 13/10, 23/10, 33/10] [0, 1, 2, 3] (1/2) (1/100)
      true true true = .ok (0, 0, 0, 0) :=
  ⟨by decide, by decide, by decide⟩

/-! ## Empty-sequence score conventions (C2) -/

/-- C2 counterexample: on two empty sequences, `information_gain` does not
return the score 1.0 — it returns `log2(num_bins)`, which is 2 for 4 bins. -/
theorem information_gain_empty_not_one :
    information_gain ([] : List ℚ) ([] : List ℚ) 4 =
      .ok (Real.logb 2 ((4 : ℕ) : ℝ), List.replicate 4 0) ∧
    Real.logb 2 ((4 : ℕ) : ℝ) ≠ 1 := by
  constructor
  · rfl
  · have hlog : Real.log 2 ≠ 0 := ne_of_gt (Real.log_pos (by norm_num))
    have h4 : Real.logb 2 ((4 : ℕ) : ℝ) = 2 := by
      simp only [Real.logb, show ((4 : ℕ) : ℝ) = 2 ^ (2 : ℕ) by norm_num,
        Real.log_pow]
      field_simp
    rw [h4]
    norm_num

theorem except_pure_eq_ok {α : Type} (a : α) :
    (pure a : Except MadmomError α) = .ok a := rfl

/-- C2 (amended): with both sequences empty, pscore/cemgil/goto/cml/continuity
return the perfect score 1.0 (or a tuple of 1.0s) and `information_gain`
returns its maximal score `log2(num_bins)` with an all-zero histogram; with
exactly one sequence empty, all of them return the zero score (0.0, tuples of
0.0s, or gain 0 with a uniform histogram); in all cases no error is raised,
regardless of the tolerance parameters. -/
theorem empty_sequence_scores (xs : List ℚ) (hxs : xs ≠ [])
    (tol sigma thr gs gm pt tt : ℚ) (ob db tr : Bool) (num_bins : ℕ) :
    (pscore [] [] tol = .ok 1 ∧ pscore xs [] tol = .ok 0 ∧
      pscore [] xs tol = .ok 0) ∧
    (cemgil [] [] sigma = .ok 1 ∧ cemgil xs [] sigma = .ok 0 ∧
      cemgil [] xs sigma = .ok 0) ∧
    (goto [] [] thr gs gm = .ok 1 ∧ goto xs [] thr gs gm = .ok 0 ∧
      goto [] xs thr gs gm = .ok 0) ∧
    (cml [] [] pt tt = .ok (1, 1) ∧ cml xs [] pt tt = .ok (0, 0) ∧
      cml [] xs pt tt = .ok (0, 0)) ∧
    (continuity [] [] pt tt ob db tr = .ok (1, 1, 1, 1) ∧
      continuity xs [] pt tt ob db tr = .ok (0, 0, 0, 0) ∧
      continuity [] xs pt tt ob db tr = .ok (0, 0, 0, 0)) ∧
    (information_gain [] [] num_bins =
        .ok (Real.logb 2 (num_bins : ℝ), List.replicate num_bins 0) ∧
      information_gain xs [] num_bins =
        .ok (0, List.replicate num_bins ((xs.length : ℚ) / (num_bins : ℚ))) ∧
      information_gain [] xs num_bins =
        .ok (0, List.replicate num_bins ((xs.length : ℚ) / (num_bins : ℚ)))) := by
  have hxe : xs.isEmpty = false := by simpa using hxs
  refine ⟨⟨rfl, ?_, ?_⟩, ⟨rfl, ?_, ?_⟩, ⟨rfl, ?_, ?_⟩, ⟨rfl, ?_, ?_⟩,
    ⟨rfl, ?_, ?_⟩, ⟨rfl, ?_, ?_⟩⟩ <;>
    simp [pscore, cemgil, goto, cml, continuity, information_gain, hxe,
      except_pure_eq_ok, except_bind_ok]

/-- Witness for C2 at a concrete input. -/
theorem empty_sequence_scores_witness :
    ([1] : List ℚ) ≠ [] ∧
    ((pscore [] [] 1 = .ok 1 ∧ pscore [1] [] 1 = .ok 0 ∧
      pscore [] [1] 1 = .ok 0) ∧
    (cemgil [] [] 1 = .ok 1 ∧ cemgil [1] [] 1 = .ok 0 ∧
      cemgil [] [1] 1 = .ok 0) ∧
    (goto [] [] 1 1 1 = .ok 1 ∧ goto [1] [] 1 1 1 = .ok 0 ∧
      goto [] [1] 1 1 1 = .ok 0) ∧
    (cml [] [] 1 1 = .ok (1, 1) ∧ cml [1] [] 1 1 = .ok (0, 0) ∧
      cml [] [1] 1 1 = .ok (0, 0)) ∧
    (continuity [] [] 1 1 true true true = .ok (1, 1, 1, 1) ∧
      continuity [1] [] 1 1 true true true = .ok (0, 0, 0, 0) ∧
      continuity [] [1] 1 1 true true true = .ok (0, 0, 0, 0)) ∧
    (information_gain [] [] 2 =
        .ok (Real.logb 2 ((2 : ℕ) : ℝ), List.replicate 2 0) ∧
      information_gain [1] [] 2 =
        .ok (0, List.replicate 2 ((([1] : List ℚ).length : ℚ) / ((2 : ℕ) : ℚ))) ∧
      information_gain [] [1] 2 =
        .ok (0, List.replicate 2 ((([1] : List ℚ).length : ℚ) / ((2 : ℕ) : ℚ))))) :=
  ⟨by decide,
    empty_sequence_scores [1] (by decide) 1 1 1 1 1 1 1 true true true 2⟩

end Madmom
